import Mathlib

/-!
Verification of the natural-language specification of
`export_anki_to_markdown` (`src/convert.py`) against a shallow Lean
embedding of the program.

Python strings are modelled as `List Char` (a Python `str` is a sequence
of Unicode code points, which is exactly what `String.toList` yields).
The third-party `html2text` conversion used by `clean_field` is not part
of this repository; it is abstracted as a function parameter `handle`.
All other definitions are translated directly from `src/convert.py`.
-/

/-! ## String literals of the program, as character lists -/

/-- The literal `".md"` used in the f-strings of `main` (lines 137/139). -/
def mdExt : List Char := ['.', 'm', 'd']

/-- The literal `"unnamed"`, fallback of `sanitize_filename` (line 71). -/
def unnamedLit : List Char := ['u', 'n', 'n', 'a', 'm', 'e', 'd']

/-- The literal `"Note_"` of the fallback title `f"Note_{note_id}"` (line 126). -/
def noteFallbackLit : List Char := ['N', 'o', 't', 'e', '_']

/-- The literal `"# "` of the written file `f"# {title}\n\n{content}\n"` (line 147). -/
def headingMark : List Char := ['#', ' ']

/-- The literal `"\n\n"` separating heading and body (line 147). -/
def blankSep : List Char := ['\n', '\n']

/-- The literal `"\n"` ending the written file (line 147). -/
def newlineLit : List Char := ['\n']

/-- The output root directory `"markdown_output"` (line 94). -/
def outputRoot : List Char :=
  ['m', 'a', 'r', 'k', 'd', 'o', 'w', 'n', '_', 'o', 'u', 't', 'p', 'u', 't']

/-- The notice `"No decks found in Anki."` printed on an empty deck list (line 90). -/
def noDecksMsg : List Char :=
  ['N', 'o', ' ', 'd', 'e', 'c', 'k', 's', ' ', 'f', 'o', 'u', 'n', 'd',
   ' ', 'i', 'n', ' ', 'A', 'n', 'k', 'i', '.']

/-! ## Decimal rendering of natural numbers (Python `f"{n}"`)

Python's `f"{count}"` and `f"Note_{note_id}"` interpolate the decimal
representation of the integer.  `natReprAux` is fuel-structured so that it
reduces in the kernel; the fuel `n + 1` always suffices. -/

/-- One decimal digit character. -/
def digitChar : Nat → Char
  | 0 => '0' | 1 => '1' | 2 => '2' | 3 => '3' | 4 => '4'
  | 5 => '5' | 6 => '6' | 7 => '7' | 8 => '8' | 9 => '9'
  | _ => '*'

/-- Decimal digits of `n`, most significant first, with explicit fuel. -/
def natReprAux : Nat → Nat → List Char
  | 0, _ => []
  | fuel + 1, n =>
    if n < 10 then [digitChar n]
    else natReprAux fuel (n / 10) ++ [digitChar (n % 10)]

/-- Decimal representation of `n`, as produced by Python `f"{n}"`. -/
def natRepr (n : Nat) : List Char := natReprAux (n + 1) n

/-! ## Python `str.strip` -/

/-- The characters Python `str.strip()` (no arguments) removes. -/
def pyWhitespaceChars : List Char :=
  [' ', '\t', '\n', '\x0b', '\x0c', '\r',
   '\x1c', '\x1d', '\x1e', '\x1f', '\x85', '\xa0',
   ' ', ' ', ' ', ' ', ' ', ' ', ' ',
   ' ', ' ', ' ', ' ', ' ', ' ', ' ',
   ' ', ' ', '　']

/-- Whether `c` is whitespace for Python `str.strip()`. -/
def isPyWhitespace (c : Char) : Bool := pyWhitespaceChars.contains c

/-- Python `str.strip`: remove from both ends the characters satisfying `p`. -/
def stripWhile (p : Char → Bool) (l : List Char) : List Char :=
  ((l.dropWhile p).reverse.dropWhile p).reverse

/-- Python `str.strip()` with no arguments. -/
def pyStrip (l : List Char) : List Char := stripWhile isPyWhitespace l

/-! ## `clean_field` (src/convert.py lines 37-62)

The body configures an `html2text.HTML2Text` instance and returns
`h.handle(field).strip()`; the `html2text` conversion is third-party code,
abstracted here as the parameter `handle`. -/

/-- `clean_field(field)`: `""` for `None`, otherwise `handle(field).strip()`.
The parameter `handle` abstracts the configured `html2text` converter
(third-party code, not part of this repository). -/
def clean_field (handle : List Char → List Char) : Option (List Char) → List Char
  | none => []
  | some field => pyStrip (handle field)

/-! ## `sanitize_filename` (src/convert.py lines 64-72) -/

/-- Membership in the regex class `[a-zA-Z0-9\-_.À-ſ]` (line 67). -/
def isAllowedChar (c : Char) : Bool :=
  (('a' ≤ c) && (c ≤ 'z')) || (('A' ≤ c) && (c ≤ 'Z')) ||
  (('0' ≤ c) && (c ≤ '9')) || (c == '-') || (c == '_') || (c == '.') ||
  ((0xC0 ≤ c.toNat) && (c.toNat ≤ 0x17F))

/-- `re.sub(r'_+', '_', s)`: collapse every run of underscores to a single
underscore.  The flag records whether the previous emitted character closed
an underscore run. -/
def collapseAux : List Char → Bool → List Char
  | [], _ => []
  | c :: rest, prevU =>
    if c == '_' then
      if prevU then collapseAux rest true else '_' :: collapseAux rest true
    else c :: collapseAux rest false

/-- Lines 66-69 of `sanitize_filename`: replace spaces by underscores,
replace characters outside the allow-list by underscores
(`re.match(f'[{allowed_chars}]', c)`), collapse repeated underscores
(`re.sub(r'_+', '_', ...)`), strip leading/trailing underscores
(`.strip('_')`). -/
def sanitizeCore (name : List Char) : List Char :=
  stripWhile (fun c => c == '_')
    (collapseAux
      ((name.map fun c => if c == ' ' then '_' else c).map
        fun c => if isAllowedChar c then c else '_')
      false)

/-- `sanitize_filename(name)` (lines 64-72): the core transformation with
the `"unnamed"` fallback of lines 70-71. -/
def sanitize_filename (name : List Char) : List Char :=
  if sanitizeCore name = [] then unnamedLit else sanitizeCore name

/-- `true` when the list has no two adjacent underscores. -/
def noConsecUnderscore : List Char → Bool
  | c1 :: c2 :: rest => !((c1 == '_') && (c2 == '_')) && noConsecUnderscore (c2 :: rest)
  | _ => true

/-! ## `truncate_title` (src/convert.py lines 74-83) -/

/-- Index of the last occurrence of `c` in `l`, mirroring Python
`str.rfind` restricted to the searched slice. -/
def rfindIdx (c : Char) : List Char → Option Nat
  | [] => none
  | a :: rest =>
    match rfindIdx c rest with
    | some i => some (i + 1)
    | none => if a == c then some 0 else none

/-- `truncate_title(title, max_length)` (lines 74-83): unchanged when short
enough, else cut at the last space before `max_length` (`rfind(' ', 0,
max_length)`), else hard cut at `max_length`. -/
def truncate_title (title : List Char) (max_length : Nat) : List Char :=
  if title.length ≤ max_length then title
  else
    match rfindIdx ' ' (title.take max_length) with
    | some space_index => title.take space_index
    | none => title.take max_length

/-! ## Deck directory (src/convert.py lines 106-108) -/

/-- Prepend a character to the first chunk of a split result. -/
def consHead (c : Char) : List (List Char) → List (List Char)
  | [] => [[c]]
  | h :: t => (c :: h) :: t

/-- Python `deck_name.split("::")` (line 106): split on non-overlapping
occurrences of `"::"`, scanning left to right; `"".split("::") == [""]`. -/
def splitOnColons : List Char → List (List Char)
  | ':' :: ':' :: rest => [] :: splitOnColons rest
  | c :: rest => consHead c (splitOnColons rest)
  | [] => [[]]

/-- Directory for a deck (lines 106-108), as a list of path segments:
`os.path.join(output_dir, *[sanitize_filename(part) for part in
deck_name.split("::") if part])`. -/
def deck_directory (deck_name : List Char) : List (List Char) :=
  let parts := splitOnColons deck_name
  let sanitized_parts := (parts.filter fun p => p ≠ []).map sanitize_filename
  outputRoot :: sanitized_parts

/-! ## `anki_connect` (src/convert.py lines 12-23)

The transport (`requests.post`, `raise_for_status`, `response.json()`) is
modelled by its outcome: either a `requests.exceptions.RequestException`
(connection error, non-success HTTP status, undecodable body) or the
decoded JSON response object. -/

/-- A JSON value.  AnkiConnect responses are JSON objects, carried
separately as association lists by `TransportOutcome.response`. -/
inductive Json where
  | null : Json
  | bool (b : Bool) : Json
  | num (n : Int) : Json
  | str (s : List Char) : Json
  | arr (elems : List Json) : Json
  | obj (fields : List (List Char × Json)) : Json

/-- Python truthiness of a JSON-decoded value (`if result.get("error"):`). -/
def Json.truthy : Json → Bool
  | .null => false
  | .bool b => b
  | .num n => n != 0
  | .str s => s ≠ []
  | .arr elems => !elems.isEmpty
  | .obj fields => !fields.isEmpty

/-- Outcome of the HTTP exchange in `anki_connect`. -/
inductive TransportOutcome where
  | failure (msg : List Char) : TransportOutcome
  | response (fields : List (List Char × Json)) : TransportOutcome

/-- A raised Python exception: plain `Exception(msg)` (the single failure
kind `anki_connect` raises itself) or the `KeyError` that
`result["result"]` raises when the key is absent. -/
inductive PyExc where
  | exception (msg : List Char) : PyExc
  | keyError : PyExc

/-- `dict.get(key)`: `some` value or `none` when absent. -/
def lookupField (fields : List (List Char × Json)) (key : List Char) : Option Json :=
  (fields.find? fun kv => kv.1 = key).map fun kv => kv.2

/-- The key `"error"`. -/
def errorKey : List Char := ['e', 'r', 'r', 'o', 'r']

/-- The key `"result"`. -/
def resultKey : List Char := ['r', 'e', 's', 'u', 'l', 't']

/-- Message `"Failed to connect to AnkiConnect: "` (line 23), prefixing the
transport error text. -/
def connectFailMsg : List Char :=
  ['F', 'a', 'i', 'l', 'e', 'd', ' ', 't', 'o', ' ', 'c', 'o', 'n', 'n',
   'e', 'c', 't']

/-- Message `"AnkiConnect error: "` (line 20); the interpolated error value
is abstracted away, only the failure kind matters to the spec. -/
def ankiErrorMsg : List Char :=
  ['A', 'n', 'k', 'i', 'C', 'o', 'n', 'n', 'e', 'c', 't', ' ', 'e', 'r',
   'r', 'o', 'r']

/-- Truthiness of `result.get("error")` (line 19); `None` is falsy. -/
def errorFieldTruthy (fields : List (List Char × Json)) : Bool :=
  match lookupField fields errorKey with
  | some e => e.truthy
  | none => false

/-- `anki_connect` (lines 12-23).  A transport failure is caught by
`except requests.exceptions.RequestException` and re-raised as a plain
`Exception`; a truthy `error` field raises a plain `Exception` (not caught
by that handler); otherwise `result["result"]` is returned, raising
`KeyError` when the key is absent. -/
def anki_connect (t : TransportOutcome) : Except PyExc Json :=
  match t with
  | .failure msg => Except.error (PyExc.exception (connectFailMsg ++ msg))
  | .response fields =>
    if errorFieldTruthy fields then Except.error (PyExc.exception ankiErrorMsg)
    else
      match lookupField fields resultKey with
      | some v => Except.ok v
      | none => Except.error PyExc.keyError

/-! ## The exporter loop of `main` (src/convert.py lines 85-151) -/

/-- A note as consumed by `main`: `note.get("noteId")` and the values
`fields.get("Front", {}).get("value", "")` / `.get("Back", ...)` (absent
fields collapse to `""`, exactly as in lines 116-119). -/
structure Note where
  noteId : Nat
  front : List Char
  back : List Char

/-- A file-system event of the per-note loop: a completed write of
`full_path`'s last component with the given content, or the empty file that
`with open(...)` creates when evaluating `f"# {title}..."` raises
`UnboundLocalError` (the `title` variable was never assigned). -/
inductive WriteEvent where
  | file (noteId : Nat) (filename : List Char) (content : List Char) : WriteEvent
  | emptyFile (noteId : Nat) (filename : List Char) : WriteEvent
  deriving DecidableEq

/-- The filename component of a write event. -/
def eventFilename : WriteEvent → List Char
  | .file _ filename _ => filename
  | .emptyFile _ filename => filename

/-- The filename built at lines 135-139: `f"{base}_{count}.md"` when
`count > 0`, else `f"{base}.md"`. -/
def fname (base : List Char) (count : Nat) : List Char :=
  if 0 < count then base ++ '_' :: (natRepr count ++ mdExt) else base ++ mdExt

/-- The `truncated_title` computed at lines 122-126: the truncated rendered
`Front` when `Front` is non-empty, else `f"Note_{note_id}"`. -/
def derive_truncated_title (handle : List Char → List Char) (note : Note) : List Char :=
  if note.front ≠ [] then truncate_title (clean_field handle (some note.front)) 200
  else noteFallbackLit ++ natRepr note.noteId

/-- The `base_filename` of line 132: `sanitize_filename(truncated_title)`. -/
def derive_base (handle : List Char → List Char) (note : Note) : List Char :=
  sanitize_filename (derive_truncated_title handle note)

/-- The initial `title_counts = {}` of line 112. -/
def zeroCounts : List Char → Nat := fun _ => 0

/-- The filenames the duplicate-handling of lines 134-140 assigns to a
sequence of base filenames, threading the `title_counts` dictionary. -/
def assignFilenames : (List Char → Nat) → List (List Char) → List (List Char)
  | _, [] => []
  | counts, base :: rest =>
    fname base (counts base)
      :: assignFilenames (fun b => if b = base then counts base + 1 else counts b) rest

/-- The per-note loop of lines 115-148 for one deck.  `counts` is
`title_counts`, `lastTitle` is the current value of the Python variable
`title` (`none` when it has never been assigned; it is only assigned inside
`if front:` at line 123, so for a note with empty `Front` the file heading
uses the stale previous value, and the write raises `UnboundLocalError`
when there is none).  Returns the write events, the final value of `title`,
and whether the loop completed without raising. -/
def processNotes (handle : List Char → List Char) :
    (List Char → Nat) → Option (List Char) → List Note →
      List WriteEvent × Option (List Char) × Bool
  | _, lastTitle, [] => ([], lastTitle, true)
  | counts, lastTitle, note :: rest =>
    let title? :=
      if note.front ≠ [] then some (clean_field handle (some note.front)) else lastTitle
    let base := derive_base handle note
    let c := counts base
    let filename := fname base c
    match title? with
    | none => ([WriteEvent.emptyFile note.noteId filename], none, false)
    | some title =>
      let content := if note.back ≠ [] then clean_field handle (some note.back) else []
      let fileText := headingMark ++ title ++ blankSep ++ content ++ newlineLit
      let out :=
        processNotes handle (fun b => if b = base then c + 1 else counts b) (some title) rest
      (WriteEvent.file note.noteId filename fileText :: out.1, out.2)

/-- Whether the per-note loop completes without raising: it crashes exactly
when the first note has an empty `Front` while `title` was never assigned. -/
def runCompletes (lastTitle : Option (List Char)) : List Note → Bool
  | [] => true
  | note :: _ => (note.front ≠ []) || lastTitle.isSome

/-- An observable effect of `main`: a console print, a `os.makedirs`, or a
file write (path as a list of segments). -/
inductive Effect where
  | print (msg : List Char) : Effect
  | mkdir (path : List (List Char)) : Effect
  | write (path : List (List Char)) (content : List Char) : Effect

/-- Whether an effect touches the file system. -/
def Effect.touchesFS : Effect → Bool
  | .print _ => false
  | .mkdir _ => true
  | .write _ _ => true

/-- Message `"Processing deck: "` (line 99). -/
def processingMsg : List Char :=
  ['P', 'r', 'o', 'c', 'e', 's', 's', 'i', 'n', 'g', ' ', 'd', 'e', 'c',
   'k', ':', ' ']

/-- Message `"No notes found in deck: "` (line 102). -/
def noNotesMsg : List Char :=
  ['N', 'o', ' ', 'n', 'o', 't', 'e', 's', ' ', 'f', 'o', 'u', 'n', 'd',
   ' ', 'i', 'n', ' ', 'd', 'e', 'c', 'k', ':', ' ']

/-- Message `"Saved note "` (line 148, abbreviated). -/
def savedMsg : List Char :=
  ['S', 'a', 'v', 'e', 'd', ' ', 'n', 'o', 't', 'e', ' ']

/-- Message printed by the top-level handler (line 151); the interpreter's
`UnboundLocalError` text is abstracted. -/
def errorMsg : List Char := ['E', 'r', 'r', 'o', 'r', ':', ' ']

/-- The effects of the write events of one deck, inside directory `dir`. -/
def eventEffects (dir : List (List Char)) : List WriteEvent → List Effect
  | [] => []
  | WriteEvent.file id filename content :: rest =>
    Effect.write (dir ++ [filename]) content
      :: Effect.print (savedMsg ++ natRepr id)
      :: eventEffects dir rest
  | WriteEvent.emptyFile _ filename :: rest =>
    Effect.write (dir ++ [filename]) [] :: eventEffects dir rest

/-- The deck loop of lines 98-148.  Each deck is a pair of its name and the
notes `get_notes_in_deck` returned for it.  The Python variable `title`
survives across decks (it is a local of `main`), so it is threaded. -/
def processDecks (handle : List Char → List Char) :
    Option (List Char) → List (List Char × List Note) → List Effect
  | _, [] => []
  | lastTitle, (deck_name, notes) :: rest =>
    Effect.print (processingMsg ++ deck_name) ::
      (if notes.isEmpty then
        Effect.print (noNotesMsg ++ deck_name) :: processDecks handle lastTitle rest
      else
        let dir := deck_directory deck_name
        let out := processNotes handle zeroCounts lastTitle notes
        Effect.mkdir dir ::
          (eventEffects dir out.1 ++
            (if out.2.2 then processDecks handle out.2.1 rest
             else [Effect.print errorMsg])))

/-- `main` (lines 85-151), given the data the source client returned: the
overall deck list with each deck's notes.  An empty deck list returns
immediately after the notice (lines 89-91), before `os.makedirs` of the
output root (line 95). -/
def main_effects (handle : List Char → List Char)
    (decks : List (List Char × List Note)) : List Effect :=
  if decks.isEmpty then [Effect.print noDecksMsg]
  else Effect.mkdir [outputRoot] :: processDecks handle none decks

/-- Whether a call to `anki_connect` raised (either failure kind). -/
def raisesFailure : Except PyExc Json → Bool
  | Except.error _ => true
  | Except.ok _ => false

/-! ## Lemmas about decimal rendering -/

/-- `digitChar` never yields an underscore on a digit. -/
lemma digitChar_ne_underscore (d : Nat) (h : d < 10) : digitChar d ≠ '_' := by
  interval_cases d <;> decide

/-- `digitChar` is injective on digits. -/
lemma digitChar_inj (a b : Nat) (ha : a < 10) (hb : b < 10)
    (h : digitChar a = digitChar b) : a = b := by
  interval_cases a <;> interval_cases b <;> revert h <;> decide

/-- With sufficient fuel the digit list is never empty. -/
lemma natReprAux_ne_nil (fuel n : Nat) (h : n < fuel) : natReprAux fuel n ≠ [] := by
  cases fuel with
  | zero => omega
  | succ f =>
    unfold natReprAux
    split
    · simp
    · simp

/-- The digit list never contains an underscore. -/
lemma underscore_not_mem_natReprAux : ∀ fuel n, '_' ∉ natReprAux fuel n := by
  intro fuel
  induction fuel with
  | zero => intro n; simp [natReprAux]
  | succ f ih =>
    intro n
    unfold natReprAux
    split
    · next h =>
      intro hmem
      exact digitChar_ne_underscore n h (List.mem_singleton.mp hmem).symm
    · next h =>
      intro hmem
      rcases List.mem_append.mp hmem with h1 | h2
      · exact ih _ h1
      · exact digitChar_ne_underscore (n % 10) (Nat.mod_lt _ (by omega))
          (List.mem_singleton.mp h2).symm

/-- `natRepr n` never contains an underscore. -/
lemma underscore_not_mem_natRepr (n : Nat) : '_' ∉ natRepr n :=
  underscore_not_mem_natReprAux (n + 1) n

/-- With sufficient fuel, equal digit lists come from equal numbers. -/
lemma natReprAux_inj : ∀ f1 n1, n1 < f1 → ∀ f2 n2, n2 < f2 →
    natReprAux f1 n1 = natReprAux f2 n2 → n1 = n2 := by
  intro f1
  induction f1 with
  | zero => intro n1 h; omega
  | succ f ih =>
    intro n1 h1 f2 n2 h2 heq
    cases f2 with
    | zero => omega
    | succ g =>
      unfold natReprAux at heq
      by_cases ha : n1 < 10 <;> by_cases hb : n2 < 10
      · rw [if_pos ha, if_pos hb] at heq
        have h' : digitChar n1 = digitChar n2 := by injection heq
        exact digitChar_inj n1 n2 ha hb h'
      · rw [if_pos ha, if_neg hb] at heq
        have hlen := congrArg List.length heq
        have hdiv : n2 / 10 < n2 := Nat.div_lt_self (by omega) (by omega)
        have hne := natReprAux_ne_nil g (n2 / 10) (by omega)
        simp [List.length_append] at hlen
        exact absurd hlen hne
      · rw [if_neg ha, if_pos hb] at heq
        have hlen := congrArg List.length heq
        have hdiv : n1 / 10 < n1 := Nat.div_lt_self (by omega) (by omega)
        have hne := natReprAux_ne_nil f (n1 / 10) (by omega)
        simp [List.length_append] at hlen
        exact absurd hlen hne
      · rw [if_neg ha, if_neg hb] at heq
        have hrev := congrArg List.reverse heq
        simp only [List.reverse_append, List.reverse_cons, List.reverse_nil,
          List.nil_append, List.singleton_append] at hrev
        have hhead : digitChar (n1 % 10) = digitChar (n2 % 10) := by injection hrev
        have htail : (natReprAux f (n1 / 10)).reverse = (natReprAux g (n2 / 10)).reverse := by
          injection hrev
        have hmod : n1 % 10 = n2 % 10 :=
          digitChar_inj _ _ (Nat.mod_lt _ (by omega)) (Nat.mod_lt _ (by omega)) hhead
        have hdiv1 : n1 / 10 < n1 := Nat.div_lt_self (by omega) (by omega)
        have hdiv2 : n2 / 10 < n2 := Nat.div_lt_self (by omega) (by omega)
        have hd : n1 / 10 = n2 / 10 :=
          ih (n1 / 10) (by omega) g (n2 / 10) (by omega)
            (List.reverse_injective htail)
        have e1 := Nat.div_add_mod n1 10
        have e2 := Nat.div_add_mod n2 10
        omega

/-- `natRepr` is injective. -/
lemma natRepr_inj {m n : Nat} (h : natRepr m = natRepr n) : m = n :=
  natReprAux_inj (m + 1) m (Nat.lt_succ_self m) (n + 1) n (Nat.lt_succ_self n) h

/-- `natRepr n` is never empty. -/
lemma natRepr_ne_nil (n : Nat) : natRepr n ≠ [] :=
  natReprAux_ne_nil (n + 1) n (Nat.lt_succ_self n)

/-! ## Lemmas about underscore collapsing and stripping -/

/-- The pairwise relation behind `noConsecUnderscore`. -/
def notBothUnderscore (a b : Char) : Prop := ¬(a = '_' ∧ b = '_')

/-- Boolean/`Chain'` equivalence for the no-double-underscore predicate. -/
lemma noConsec_iff_chain : ∀ l : List Char,
    noConsecUnderscore l = true ↔ l.Chain' notBothUnderscore := by
  intro l
  induction l with
  | nil => simp [noConsecUnderscore]
  | cons c t ih =>
    cases t with
    | nil => simp [noConsecUnderscore]
    | cons d r =>
      rw [List.chain'_cons, ← ih]
      simp [noConsecUnderscore, notBothUnderscore, Bool.and_eq_true, beq_iff_eq,
        and_comm, Decidable.not_and_iff_or_not]
      tauto

/-- A tail of a no-double-underscore list is one as well. -/
lemma noConsec_cons (c : Char) (l : List Char)
    (h : noConsecUnderscore (c :: l) = true) : noConsecUnderscore l = true := by
  cases l with
  | nil => rfl
  | cons d t =>
    have h' := (noConsec_iff_chain _).mp h
    exact (noConsec_iff_chain _).mpr ((List.chain'_cons.mp h').2)

/-- Cons preserves the predicate when the new head cannot pair with the old. -/
lemma noConsec_cons_intro (c : Char) (l : List Char)
    (h1 : noConsecUnderscore l = true)
    (h2 : ∀ d, l.head? = some d → ¬(c = '_' ∧ d = '_')) :
    noConsecUnderscore (c :: l) = true := by
  cases l with
  | nil => rfl
  | cons d t =>
    rw [noConsec_iff_chain, List.chain'_cons]
    exact ⟨h2 d rfl, (noConsec_iff_chain _).mp h1⟩

/-- Reversal preserves the predicate. -/
lemma noConsec_reverse (l : List Char) :
    noConsecUnderscore l.reverse = true ↔ noConsecUnderscore l = true := by
  rw [noConsec_iff_chain, noConsec_iff_chain, List.chain'_reverse]
  constructor
  · intro h
    exact h.imp fun a b hab h' => hab ⟨h'.2, h'.1⟩
  · intro h
    exact h.imp fun a b hab h' => hab ⟨h'.2, h'.1⟩

/-- `dropWhile` preserves the predicate. -/
lemma noConsec_dropWhile (p : Char → Bool) : ∀ l : List Char,
    noConsecUnderscore l = true → noConsecUnderscore (l.dropWhile p) = true := by
  intro l
  induction l with
  | nil => intro h; exact h
  | cons c t ih =>
    intro h
    rw [List.dropWhile_cons]
    split
    · exact ih (noConsec_cons _ _ h)
    · exact h

/-- `stripWhile` preserves the predicate. -/
lemma noConsec_stripWhile (p : Char → Bool) (l : List Char)
    (h : noConsecUnderscore l = true) :
    noConsecUnderscore (stripWhile p l) = true := by
  unfold stripWhile
  exact (noConsec_reverse _).mpr
    (noConsec_dropWhile p _ ((noConsec_reverse _).mpr (noConsec_dropWhile p l h)))

/-- `collapseAux _ true` never starts with an underscore. -/
lemma collapseAux_head_true : ∀ l : List Char, (collapseAux l true).head? ≠ some '_' := by
  intro l
  induction l with
  | nil => simp [collapseAux]
  | cons c t ih =>
    unfold collapseAux
    split
    · exact ih
    · next hc =>
      intro h
      simp only [List.head?_cons, Option.some.injEq] at h
      rw [h] at hc
      simp at hc

/-- The collapsed list has no two adjacent underscores. -/
lemma collapseAux_noConsec : ∀ (l : List Char) (b : Bool),
    noConsecUnderscore (collapseAux l b) = true := by
  intro l
  induction l with
  | nil => intro b; rfl
  | cons c t ih =>
    intro b
    unfold collapseAux
    split
    · next hc =>
      split
      · exact ih true
      · refine noConsec_cons_intro _ _ (ih true) ?_
        intro d hd hcd
        exact collapseAux_head_true t (hcd.2 ▸ hd)
    · next hc =>
      refine noConsec_cons_intro _ _ (ih false) ?_
      intro d hd hcd
      rw [hcd.1] at hc
      simp at hc

/-- Characters of the collapsed list come from the input or are underscores. -/
lemma mem_collapseAux : ∀ (l : List Char) (b : Bool) (c : Char),
    c ∈ collapseAux l b → c ∈ l ∨ c = '_' := by
  intro l
  induction l with
  | nil => intro b c h; simp [collapseAux] at h
  | cons a t ih =>
    intro b c h
    unfold collapseAux at h
    split at h
    · split at h
      · rcases ih true c h with h1 | h2
        · exact Or.inl (List.mem_cons_of_mem _ h1)
        · exact Or.inr h2
      · rcases List.mem_cons.mp h with h1 | h2
        · exact Or.inr h1
        · rcases ih true c h2 with h3 | h4
          · exact Or.inl (List.mem_cons_of_mem _ h3)
          · exact Or.inr h4
    · rcases List.mem_cons.mp h with h1 | h2
      · exact Or.inl (h1 ▸ List.mem_cons_self _ _)
      · rcases ih false c h2 with h3 | h4
        · exact Or.inl (List.mem_cons_of_mem _ h3)
        · exact Or.inr h4

/-- On a list with no double underscores, collapsing is the identity. -/
lemma collapseAux_id : ∀ l : List Char, noConsecUnderscore l = true →
    collapseAux l false = l ∧ (l.head? ≠ some '_' → collapseAux l true = l) := by
  intro l
  induction l with
  | nil => intro h; exact ⟨rfl, fun _ => rfl⟩
  | cons c t ih =>
    intro h
    have ht := noConsec_cons c t h
    obtain ⟨ih1, ih2⟩ := ih ht
    by_cases hc : c = '_'
    · subst hc
      have hthead : t.head? ≠ some '_' := by
        cases t with
        | nil => simp
        | cons d r =>
          intro hd
          have hd' := Option.some.inj hd
          subst hd'
          rw [noConsec_iff_chain, List.chain'_cons] at h
          exact h.1 ⟨rfl, rfl⟩
      constructor
      · unfold collapseAux
        simp only [beq_self_eq_true, if_true]
        rw [if_neg (by simp)]
        rw [ih2 hthead]
      · intro hhead
        simp at hhead
    · constructor
      · unfold collapseAux
        rw [if_neg (by simp [hc])]
        rw [ih1]
      · intro _
        unfold collapseAux
        rw [if_neg (by simp [hc])]
        rw [ih1]

/-- The head surviving `dropWhile p` does not satisfy `p`. -/
lemma head?_dropWhile_false (p : Char → Bool) : ∀ (l : List Char) (a : Char),
    (l.dropWhile p).head? = some a → p a = false := by
  intro l
  induction l with
  | nil => intro a h; simp [List.dropWhile] at h
  | cons c t ih =>
    intro a h
    rw [List.dropWhile_cons] at h
    split at h
    · exact ih a h
    · next hp =>
      have := Option.some.inj h
      subst this
      exact Bool.not_eq_true _ ▸ (by simpa using hp)

/-- `stripWhile p l` is an initial segment of `l.dropWhile p`. -/
lemma stripWhile_pre (p : Char → Bool) (l : List Char) :
    stripWhile p l <+: l.dropWhile p := by
  unfold stripWhile
  have h1 : ((l.dropWhile p).reverse.dropWhile p).reverse.reverse <:+
      (l.dropWhile p).reverse := by
    rw [List.reverse_reverse]
    exact List.dropWhile_suffix p
  exact List.reverse_suffix.mp h1

/-- A non-empty initial segment has the same head. -/
lemma head?_of_pre {l m : List Char} (h : l <+: m) (hn : l ≠ []) :
    l.head? = m.head? := by
  obtain ⟨t, rfl⟩ := h
  cases l with
  | nil => exact absurd rfl hn
  | cons c r => rfl

/-- The head surviving `stripWhile p` does not satisfy `p`. -/
lemma stripWhile_head? (p : Char → Bool) (l : List Char) (a : Char)
    (h : (stripWhile p l).head? = some a) : p a = false := by
  have hne : stripWhile p l ≠ [] := by
    intro he
    rw [he] at h
    simp at h
  have := head?_of_pre (stripWhile_pre p l) hne
  rw [this] at h
  exact head?_dropWhile_false p l a h

/-- The last element surviving `stripWhile p` does not satisfy `p`. -/
lemma stripWhile_getLast? (p : Char → Bool) (l : List Char) (a : Char)
    (h : (stripWhile p l).getLast? = some a) : p a = false := by
  unfold stripWhile at h
  rw [List.getLast?_reverse] at h
  exact head?_dropWhile_false p _ a h

/-- Characters of `stripWhile p l` are characters of `l`. -/
lemma mem_stripWhile {p : Char → Bool} {l : List Char} {c : Char}
    (h : c ∈ stripWhile p l) : c ∈ l :=
  (List.dropWhile_suffix p).sublist.subset ((stripWhile_pre p l).sublist.subset h)

/-- If nothing at the ends satisfies `p`, stripping is the identity. -/
lemma dropWhile_eq_self_of_head (p : Char → Bool) (l : List Char)
    (h : ∀ a, l.head? = some a → p a = false) : l.dropWhile p = l := by
  cases l with
  | nil => rfl
  | cons c t =>
    rw [List.dropWhile_cons]
    rw [if_neg (by simp [h c rfl])]

/-- If neither end satisfies `p`, `stripWhile` is the identity. -/
lemma stripWhile_eq_self (p : Char → Bool) (l : List Char)
    (hh : ∀ a, l.head? = some a → p a = false)
    (hl : ∀ a, l.getLast? = some a → p a = false) : stripWhile p l = l := by
  unfold stripWhile
  rw [dropWhile_eq_self_of_head p l hh]
  rw [dropWhile_eq_self_of_head p l.reverse
    (by intro a ha; rw [List.head?_reverse] at ha; exact hl a ha)]
  exact List.reverse_reverse l

/-- Mapping a function that fixes every member is the identity. -/
lemma map_id_of (f : Char → Char) (l : List Char) (h : ∀ c ∈ l, f c = c) :
    l.map f = l := by
  induction l with
  | nil => rfl
  | cons c t ih =>
    rw [List.map_cons, h c (List.mem_cons_self c t),
      ih fun x hx => h x (List.mem_cons_of_mem _ hx)]

/-! ## The safety properties of `sanitize_filename` -/

/-- Master lemma: every output of `sanitize_filename` uses only allow-listed
characters, has no two adjacent underscores, neither starts nor ends with an
underscore, and is non-empty; the `"unnamed"` fallback is returned exactly
when the core transformation yields the empty string. -/
lemma sanitize_filename_props (s : List Char) :
    (∀ c ∈ sanitize_filename s, isAllowedChar c = true) ∧
    noConsecUnderscore (sanitize_filename s) = true ∧
    (sanitize_filename s).head? ≠ some '_' ∧
    (sanitize_filename s).getLast? ≠ some '_' ∧
    sanitize_filename s ≠ [] := by
  by_cases hcore : sanitizeCore s = []
  · rw [sanitize_filename, if_pos hcore]
    refine ⟨?_, ?_, ?_, ?_, ?_⟩ <;> decide
  · rw [sanitize_filename, if_neg hcore]
    refine ⟨?_, ?_, ?_, ?_, hcore⟩
    · intro c hc
      unfold sanitizeCore at hc
      have h1 := mem_stripWhile hc
      rcases mem_collapseAux _ _ _ h1 with h2 | h2
      · rcases List.mem_map.mp h2 with ⟨x, _, hx⟩
        by_cases hax : isAllowedChar x = true
        · rw [← hx, if_pos hax]; exact hax
        · rw [← hx, if_neg hax]; decide
      · rw [h2]; decide
    · exact noConsec_stripWhile _ _ (collapseAux_noConsec _ _)
    · intro h
      have := stripWhile_head? _ _ _ h
      simp at this
    · intro h
      have := stripWhile_getLast? _ _ _ h
      simp at this

/-- On an output of `sanitize_filename`, the whole core transformation is
the identity. -/
lemma sanitizeCore_of_sanitized (s : List Char) :
    sanitizeCore (sanitize_filename s) = sanitize_filename s := by
  obtain ⟨hall, hnc, hh, hl, hne⟩ := sanitize_filename_props s
  unfold sanitizeCore
  have h1 : (sanitize_filename s).map (fun c => if c == ' ' then '_' else c) =
      sanitize_filename s := by
    refine map_id_of _ _ ?_
    intro c hc
    have hA := hall c hc
    have hcs : c ≠ ' ' := by
      intro he
      rw [he] at hA
      simp [isAllowedChar] at hA
    rw [if_neg (by simp [hcs])]
  have h2 : (sanitize_filename s).map (fun c => if isAllowedChar c then c else '_') =
      sanitize_filename s := by
    refine map_id_of _ _ ?_
    intro c hc
    rw [if_pos (hall c hc)]
  rw [h1, h2, (collapseAux_id _ hnc).1]
  refine stripWhile_eq_self _ _ ?_ ?_
  · intro a ha
    have : a ≠ '_' := by
      intro he
      rw [he] at ha
      exact hh ha
    simp [this]
  · intro a ha
    have : a ≠ '_' := by
      intro he
      rw [he] at ha
      exact hl ha
    simp [this]

/-! ## Claim theorems -/

/-- C4: for every input string, the output of `sanitize_filename` contains
only allow-listed characters (ASCII letters, digits, hyphen, underscore,
period, U+00C0-U+017F), has no two consecutive underscores, has no leading
or trailing underscore, and is non-empty, with the fixed placeholder
`"unnamed"` returned when sanitization would otherwise yield the empty
string. -/
theorem C4_sanitize_filename_safe (s : List Char) :
    (∀ c ∈ sanitize_filename s, isAllowedChar c = true) ∧
    noConsecUnderscore (sanitize_filename s) = true ∧
    (sanitize_filename s).head? ≠ some '_' ∧
    (sanitize_filename s).getLast? ≠ some '_' ∧
    sanitize_filename s ≠ [] ∧
    (sanitizeCore s = [] → sanitize_filename s = unnamedLit) := by
  obtain ⟨h1, h2, h3, h4, h5⟩ := sanitize_filename_props s
  exact ⟨h1, h2, h3, h4, h5, fun h => by rw [sanitize_filename, if_pos h]⟩

/-- Witness for C4 at the concrete input `" a  b!!c "`. -/
theorem C4_witness :
    noConsecUnderscore (sanitize_filename [' ', 'a', ' ', ' ', 'b', '!', '!', 'c', ' ']) = true ∧
    sanitize_filename [' ', 'a', ' ', ' ', 'b', '!', '!', 'c', ' '] ≠ [] :=
  ⟨(C4_sanitize_filename_safe [' ', 'a', ' ', ' ', 'b', '!', '!', 'c', ' ']).2.1,
   (C4_sanitize_filename_safe [' ', 'a', ' ', ' ', 'b', '!', '!', 'c', ' ']).2.2.2.2.1⟩

/-- C10: `sanitize_filename` is idempotent. -/
theorem C10_sanitize_filename_idempotent (s : List Char) :
    sanitize_filename (sanitize_filename s) = sanitize_filename s := by
  have hne := (sanitize_filename_props s).2.2.2.2
  rw [sanitize_filename, sanitizeCore_of_sanitized, if_neg hne]

/-! ## Lemmas about `rfindIdx` and `truncate_title` -/

/-- A found index is in range. -/
lemma rfindIdx_lt_length (c : Char) : ∀ (l : List Char) (i : Nat),
    rfindIdx c l = some i → i < l.length := by
  intro l
  induction l with
  | nil => intro i h; simp [rfindIdx] at h
  | cons a t ih =>
    intro i h
    cases hr : rfindIdx c t with
    | some j =>
      simp only [rfindIdx, hr, Option.some.injEq] at h
      have hj := ih j hr
      simp only [List.length_cons]
      omega
    | none =>
      simp only [rfindIdx, hr] at h
      split at h
      · simp only [Option.some.injEq] at h
        subst h
        simp
      · exact absurd h (by simp)

/-- `rfindIdx` returns `none` exactly when the character is absent. -/
lemma rfindIdx_none_iff (c : Char) : ∀ l : List Char,
    rfindIdx c l = none ↔ c ∉ l := by
  intro l
  induction l with
  | nil => simp [rfindIdx]
  | cons a t ih =>
    cases hr : rfindIdx c t with
    | some j =>
      have hmem : c ∈ t := by
        by_contra hnm
        rw [ih.mpr hnm] at hr
        exact absurd hr (by simp)
      simp only [rfindIdx, hr, List.mem_cons]
      constructor
      · intro h
        exact absurd h (by simp)
      · intro h
        exact absurd (Or.inr hmem) h
    | none =>
      have hnt := ih.mp hr
      by_cases hac : a = c
      · simp only [rfindIdx, hr, List.mem_cons,
          if_pos (show (a == c) = true by simp [hac])]
        constructor
        · intro h
          exact absurd h (by simp)
        · intro h
          exact absurd (Or.inl hac.symm) h
      · simp only [rfindIdx, hr, List.mem_cons,
          if_neg (show ¬((a == c) = true) by simp [hac])]
        constructor
        · intro _ hor
          rcases hor with h1 | h2
          · exact hac h1.symm
          · exact hnt h2
        · intro _
          trivial

/-- C5: for every string and every `maxLength`, `truncate_title` returns a
prefix of the input of length at most `maxLength`; when the input is longer
than `maxLength` and has no space before the cut point, the output length is
exactly `maxLength`. -/
theorem C5_truncate_title_bounds (title : List Char) (max_length : Nat) :
    truncate_title title max_length <+: title ∧
    (truncate_title title max_length).length ≤ max_length ∧
    (max_length < title.length → ' ' ∉ title.take max_length →
      (truncate_title title max_length).length = max_length) := by
  unfold truncate_title
  split
  · next h =>
    exact ⟨List.prefix_rfl, h, fun h2 _ => absurd h2 (by omega)⟩
  · next h =>
    cases hr : rfindIdx ' ' (title.take max_length) with
    | some i =>
      have hi := rfindIdx_lt_length ' ' _ _ hr
      rw [List.length_take] at hi
      refine ⟨List.take_prefix i title, ?_, ?_⟩
      · rw [List.length_take]
        omega
      · intro _ hns
        rw [(rfindIdx_none_iff ' ' _).mpr hns] at hr
        exact absurd hr (by simp)
    | none =>
      refine ⟨List.take_prefix _ _, ?_, fun _ _ => ?_⟩ <;>
        rw [List.length_take] <;> omega

/-- Witness for C5 at the concrete input `"abcd"`, `maxLength = 2`. -/
theorem C5_witness :
    truncate_title ['a', 'b', 'c', 'd'] 2 <+: ['a', 'b', 'c', 'd'] ∧
    (truncate_title ['a', 'b', 'c', 'd'] 2).length = 2 :=
  ⟨(C5_truncate_title_bounds ['a', 'b', 'c', 'd'] 2).1,
   (C5_truncate_title_bounds ['a', 'b', 'c', 'd'] 2).2.2 (by decide) (by decide)⟩

/-! ## Lemmas about filename assignment -/

/-- For a fixed base, distinct counts give distinct filenames. -/
lemma fname_inj (base : List Char) : Function.Injective (fname base) := by
  intro c1 c2 h
  unfold fname at h
  by_cases h1 : 0 < c1 <;> by_cases h2 : 0 < c2
  · rw [if_pos h1, if_pos h2] at h
    have h' := List.append_cancel_left h
    have h'' : natRepr c1 ++ mdExt = natRepr c2 ++ mdExt := by injection h'
    exact natRepr_inj (List.append_cancel_right h'')
  · rw [if_pos h1, if_neg h2] at h
    have hlen := congrArg List.length h
    have hpos : 0 < (natRepr c1).length := List.length_pos.mpr (natRepr_ne_nil c1)
    simp only [mdExt, List.length_append, List.length_cons, List.length_nil] at hlen
    omega
  · rw [if_neg h1, if_pos h2] at h
    have hlen := congrArg List.length h
    have hpos : 0 < (natRepr c2).length := List.length_pos.mpr (natRepr_ne_nil c2)
    simp only [mdExt, List.length_append, List.length_cons, List.length_nil] at hlen
    omega
  · omega

/-- When the parts after the underscores are underscore-free, splitting at
the underscore is unambiguous. -/
lemma underscore_split_eq : ∀ (x y r1 r2 : List Char),
    x ++ '_' :: r1 = y ++ '_' :: r2 → '_' ∉ r1 → '_' ∉ r2 → x = y := by
  intro x
  induction x with
  | nil =>
    intro y r1 r2 heq h1 h2
    cases y with
    | nil => rfl
    | cons b y' =>
      simp only [List.nil_append, List.cons_append] at heq
      have ht : r1 = y' ++ '_' :: r2 := by injection heq
      refine absurd ?_ h1
      rw [ht]
      exact List.mem_append.mpr (Or.inr (List.mem_cons_self _ _))
  | cons a x' ih =>
    intro y r1 r2 heq h1 h2
    cases y with
    | nil =>
      simp only [List.cons_append, List.nil_append] at heq
      have ht : x' ++ '_' :: r1 = r2 := by injection heq
      refine absurd ?_ h2
      rw [← ht]
      exact List.mem_append.mpr (Or.inr (List.mem_cons_self _ _))
    | cons b y' =>
      simp only [List.cons_append] at heq
      have hab : a = b := by injection heq
      have ht : x' ++ '_' :: r1 = y' ++ '_' :: r2 := by injection heq
      rw [hab, ih y' r1 r2 ht h1 h2]

/-- `".md"` contains no underscore and the suffix after the separator
underscore of `fname` contains none either. -/
lemma underscore_not_mem_tail (c : Nat) : '_' ∉ natRepr c ++ mdExt := by
  intro h
  rcases List.mem_append.mp h with h1 | h2
  · exact underscore_not_mem_natRepr c h1
  · revert h2
    decide

/-- Shape of the members of `assignFilenames`. -/
lemma mem_assignFilenames : ∀ (bases : List (List Char)) (counts : List Char → Nat)
    (x : List Char), x ∈ assignFilenames counts bases →
    ∃ b j, b ∈ bases ∧ j < bases.count b ∧ x = fname b (counts b + j) := by
  intro bases
  induction bases with
  | nil => intro counts x h; simp [assignFilenames] at h
  | cons base rest ih =>
    intro counts x h
    simp only [assignFilenames, List.mem_cons] at h
    rcases h with h | h
    · refine ⟨base, 0, List.mem_cons_self _ _, ?_, by simpa using h⟩
      rw [List.count_cons_self]
      omega
    · obtain ⟨b, j, hb, hj, hx⟩ := ih _ x h
      by_cases hbb : b = base
      · subst hbb
        rw [if_pos rfl] at hx
        refine ⟨b, j + 1, List.mem_cons_self _ _, ?_, ?_⟩
        · rw [List.count_cons_self]
          omega
        · rw [hx]
          congr 1
          omega
      · rw [if_neg hbb] at hx
        refine ⟨b, j, List.mem_cons_of_mem _ hb, ?_, hx⟩
        rw [List.count_cons_of_ne hbb]
        exact hj

/-- The filenames assigned by lines 134-140 are pairwise distinct provided
no occurring base filename equals another occurring base filename with an
attached underscore-and-number suffix the run could produce. -/
lemma assignFilenames_nodup : ∀ (bases : List (List Char)) (counts : List Char → Nat),
    (∀ b1 ∈ bases, ∀ b2 ∈ bases, ∀ k, 1 ≤ k → k ≤ counts b2 + bases.count b2 →
      b1 ≠ b2 ++ '_' :: natRepr k) →
    (assignFilenames counts bases).Nodup := by
  intro bases
  induction bases with
  | nil => intro counts _; simp [assignFilenames]
  | cons base rest ih =>
    intro counts H
    simp only [assignFilenames]
    rw [List.nodup_cons]
    refine ⟨?_, ?_⟩
    · intro hmem
      obtain ⟨b, j, hb, hj, hx0⟩ := mem_assignFilenames rest _ _ hmem
      have hx : fname base (counts base) =
          fname b ((if b = base then counts base + 1 else counts b) + j) := hx0
      by_cases hbb : b = base
      · subst hbb
        rw [if_pos rfl] at hx
        have heq := fname_inj b hx
        omega
      · rw [if_neg hbb] at hx
        by_cases hc0 : 0 < counts base <;> by_cases hcj : 0 < counts b + j
        · unfold fname at hx
          rw [if_pos hc0, if_pos hcj] at hx
          have := underscore_split_eq base b _ _ hx
            (underscore_not_mem_tail (counts base)) (underscore_not_mem_tail (counts b + j))
          exact hbb this.symm
        · unfold fname at hx
          rw [if_pos hc0, if_neg hcj] at hx
          have hx' : (base ++ '_' :: natRepr (counts base)) ++ mdExt = b ++ mdExt := by
            rw [List.append_assoc, List.cons_append]
            exact hx
          have hbase : base ++ '_' :: natRepr (counts base) = b :=
            List.append_cancel_right hx'
          refine H b (List.mem_cons_of_mem _ hb) base (List.mem_cons_self _ _)
            (counts base) hc0 ?_ hbase.symm
          rw [List.count_cons_self]
          omega
        · unfold fname at hx
          rw [if_neg hc0, if_pos hcj] at hx
          have hx' : base ++ mdExt = (b ++ '_' :: natRepr (counts b + j)) ++ mdExt := by
            rw [List.append_assoc, List.cons_append]
            exact hx
          have hbase : base = b ++ '_' :: natRepr (counts b + j) :=
            List.append_cancel_right hx'
          refine H base (List.mem_cons_self _ _) b (List.mem_cons_of_mem _ hb)
            (counts b + j) hcj ?_ hbase
          have hcnt : (base :: rest).count b = rest.count b := List.count_cons_of_ne hbb rest
          omega
        · unfold fname at hx
          rw [if_neg hc0, if_neg hcj] at hx
          exact hbb (List.append_cancel_right hx).symm
    · refine ih _ ?_
      intro b1 hb1 b2 hb2 k hk1 hk2
      have hk2' : k ≤ (if b2 = base then counts base + 1 else counts b2) + rest.count b2 := hk2
      refine H b1 (List.mem_cons_of_mem _ hb1) b2 (List.mem_cons_of_mem _ hb2) k hk1 ?_
      by_cases hb2b : b2 = base
      · subst hb2b
        rw [if_pos rfl] at hk2'
        rw [List.count_cons_self]
        omega
      · rw [if_neg hb2b] at hk2'
        rw [List.count_cons_of_ne hb2b]
        omega

/-! ## Lemmas about the per-note loop -/

/-- The filenames of the events a run emits form an initial segment of the
full duplicate-suffix assignment (the run may stop early only by crashing on
its first note). -/
lemma processNotes_events_pre (handle : List Char → List Char) :
    ∀ (notes : List Note) (counts : List Char → Nat) (lastTitle : Option (List Char)),
    ((processNotes handle counts lastTitle notes).1).map eventFilename <+:
      assignFilenames counts (notes.map (derive_base handle)) := by
  intro notes
  induction notes with
  | nil =>
    intro counts lastTitle
    simp [processNotes, assignFilenames]
  | cons note rest ih =>
    intro counts lastTitle
    by_cases hf : note.front = []
    · cases lastTitle with
      | none =>
        simp only [processNotes, assignFilenames, List.map_cons, hf]
        simp only [ne_eq, not_true_eq_false, if_false, List.map_cons, List.map_nil]
        exact ⟨_, rfl⟩
      | some t =>
        simp only [processNotes, assignFilenames, List.map_cons, hf]
        simp only [ne_eq, not_true_eq_false, if_false, List.map_cons]
        rw [List.cons_prefix_cons]
        exact ⟨rfl, ih _ _⟩
    · simp only [processNotes, assignFilenames, List.map_cons]
      rw [if_pos hf]
      simp only [List.map_cons]
      rw [List.cons_prefix_cons]
      exact ⟨rfl, ih _ _⟩

/-- Once `title` holds a value the loop can never crash. -/
lemma runCompletes_some (t : List Char) (notes : List Note) :
    runCompletes (some t) notes = true := by
  cases notes <;> simp [runCompletes]

/-- When the loop completes, its event filenames are exactly the
duplicate-suffix assignment over the derived base filenames. -/
lemma processNotes_events_complete (handle : List Char → List Char) :
    ∀ (notes : List Note) (counts : List Char → Nat) (lastTitle : Option (List Char)),
    runCompletes lastTitle notes = true →
    ((processNotes handle counts lastTitle notes).1).map eventFilename =
      assignFilenames counts (notes.map (derive_base handle)) := by
  intro notes
  induction notes with
  | nil =>
    intro counts lastTitle _
    simp [processNotes, assignFilenames]
  | cons note rest ih =>
    intro counts lastTitle hrc
    by_cases hf : note.front = []
    · have hsome : lastTitle.isSome := by
        simp [runCompletes, hf] at hrc
        exact hrc
      obtain ⟨t, ht⟩ := Option.isSome_iff_exists.mp hsome
      subst ht
      simp only [processNotes, assignFilenames, List.map_cons, hf]
      simp only [ne_eq, not_true_eq_false, if_false, List.map_cons]
      rw [ih _ _ (runCompletes_some _ _)]
      rfl
    · simp only [processNotes, assignFilenames, List.map_cons]
      rw [if_pos hf]
      simp only [List.map_cons]
      rw [ih _ _ (runCompletes_some _ _)]
      rfl

/-- Closed form of the assignment when all bases are equal. -/
lemma assignFilenames_replicate (base : List Char) :
    ∀ (n : Nat) (counts : List Char → Nat),
    assignFilenames counts (List.replicate n base) =
      (List.range n).map (fun i => fname base (counts base + i)) := by
  intro n
  induction n with
  | zero => intro counts; simp [assignFilenames]
  | succ m ih =>
    intro counts
    rw [List.replicate_succ]
    simp only [assignFilenames]
    rw [ih, List.range_succ_eq_map]
    simp only [List.map_cons, List.map_map, eq_self_iff_true, if_true]
    congr 1
    apply List.map_congr_left
    intro i hi
    simp only [Function.comp_apply]
    congr 1
    omega

/-- C2 counterexample: in a deck whose notes render to titles `"a"`, `"a"`,
`"a 1"` (identity conversion), the exporter writes `a.md`, `a_1.md`,
`a_1.md` — the third file overwrites the second, so the filenames written
into the deck directory are not duplicate-free. -/
theorem C2_counterexample :
    (((processNotes (fun l => l) zeroCounts none
        [⟨1, ['a'], []⟩, ⟨2, ['a'], []⟩, ⟨3, ['a', ' ', '1'], []⟩]).1).map
          eventFilename =
      [['a', '.', 'm', 'd'], ['a', '_', '1', '.', 'm', 'd'],
       ['a', '_', '1', '.', 'm', 'd']]) ∧
    ¬ (((processNotes (fun l => l) zeroCounts none
        [⟨1, ['a'], []⟩, ⟨2, ['a'], []⟩, ⟨3, ['a', ' ', '1'], []⟩]).1).map
          eventFilename).Nodup := by
  constructor
  · decide
  · decide

/-- C2 (amended): within one deck the assigned filenames are pairwise
distinct provided no note's derived base filename equals another note's
derived base filename extended by an underscore and a decimal number the
run could use as a duplicate suffix. -/
theorem C2_filenames_nodup (handle : List Char → List Char) (notes : List Note)
    (hpat : ∀ n1 ∈ notes, ∀ n2 ∈ notes, ∀ k, 1 ≤ k → k ≤ notes.length →
      derive_base handle n1 ≠ derive_base handle n2 ++ '_' :: natRepr k)
    (lastTitle : Option (List Char)) :
    (((processNotes handle zeroCounts lastTitle notes).1).map eventFilename).Nodup := by
  have hnodup : (assignFilenames zeroCounts (notes.map (derive_base handle))).Nodup := by
    apply assignFilenames_nodup
    intro b1 hb1 b2 hb2 k hk1 hk2
    obtain ⟨m1, hm1, rfl⟩ := List.mem_map.mp hb1
    obtain ⟨m2, hm2, rfl⟩ := List.mem_map.mp hb2
    refine hpat m1 hm1 m2 hm2 k hk1 ?_
    have hle := List.count_le_length (derive_base handle m2) (notes.map (derive_base handle))
    rw [List.length_map] at hle
    simp only [zeroCounts, Nat.zero_add] at hk2
    omega
  exact List.Nodup.sublist (processNotes_events_pre handle notes zeroCounts lastTitle).sublist
    hnodup

/-- Witness for C2: two notes with the same rendered front `"a"` receive
the two distinct filenames `a.md` and `a_1.md`. -/
theorem C2_witness :
    (((processNotes (fun l => l) zeroCounts none
        [⟨1, ['a'], []⟩, ⟨2, ['a'], []⟩]).1).map eventFilename).Nodup := by
  apply C2_filenames_nodup (fun l => l) [⟨1, ['a'], []⟩, ⟨2, ['a'], []⟩]
  intro n1 h1 n2 h2 k hk1 hk2
  have hk : k = 1 ∨ k = 2 := by
    simp only [List.length_cons, List.length_nil] at hk2
    omega
  have hb1 : derive_base (fun l => l) n1 = ['a'] := by
    rcases List.mem_cons.mp h1 with h | h
    · rw [h]; decide
    · rcases List.mem_cons.mp h with h' | h'
      · rw [h']; decide
      · simp at h'
  have hb2 : derive_base (fun l => l) n2 = ['a'] := by
    rcases List.mem_cons.mp h2 with h | h
    · rw [h]; decide
    · rcases List.mem_cons.mp h with h' | h'
      · rw [h']; decide
      · simp at h'
  rw [hb1, hb2]
  rcases hk with h | h <;> rw [h] <;> decide

/-- C6 counterexample: a deck whose two notes both derive the base filename
`"Note_5"` (the first through the `Note_<id>` fallback with an empty
`Front`, the second from the rendered front `"Note 5"`) crashes on the
first note — the write of `f"# {title}..."` raises `UnboundLocalError`
because `title` was never assigned — leaving a single empty `Note_5.md`
instead of the two claimed files. -/
theorem C6_counterexample :
    ([(⟨5, [], []⟩ : Note), ⟨6, ['N', 'o', 't', 'e', ' ', '5'], []⟩].map
        (derive_base (fun l => l)) =
      List.replicate 2 ['N', 'o', 't', 'e', '_', '5']) ∧
    ((processNotes (fun l => l) zeroCounts none
        [⟨5, [], []⟩, ⟨6, ['N', 'o', 't', 'e', ' ', '5'], []⟩]).1).map eventFilename ≠
      (List.range 2).map (fname ['N', 'o', 't', 'e', '_', '5']) := by
  constructor
  · decide
  · decide

/-- C6 (amended): when every note of the deck derives the same base
filename and the run does not abort (the `title` variable holds a value
when first needed), the exporter assigns exactly the filenames `base.md`,
`base_1.md`, ..., `base_{N-1}.md` in processing order, and they are
pairwise distinct. -/
theorem C6_same_base_filenames (handle : List Char → List Char) (notes : List Note)
    (base : List Char) (N : Nat)
    (hbases : notes.map (derive_base handle) = List.replicate N base)
    (lastTitle : Option (List Char))
    (hrun : runCompletes lastTitle notes = true) :
    ((processNotes handle zeroCounts lastTitle notes).1).map eventFilename =
      (List.range N).map (fname base) ∧
    ((List.range N).map (fname base)).Nodup := by
  constructor
  · rw [processNotes_events_complete handle notes zeroCounts lastTitle hrun, hbases,
      assignFilenames_replicate]
    apply List.map_congr_left
    intro i hi
    simp [zeroCounts]
  · exact (List.nodup_range N).map (fname_inj base)

/-- Witness for C6: two notes with rendered front `"a"` receive `a.md` and
`a_1.md`. -/
theorem C6_witness :
    ((processNotes (fun l => l) zeroCounts none
        [⟨1, ['a'], []⟩, ⟨2, ['a'], []⟩]).1).map eventFilename =
      (List.range 2).map (fname ['a']) :=
  (C6_same_base_filenames (fun l => l) [⟨1, ['a'], []⟩, ⟨2, ['a'], []⟩] ['a'] 2
    (by decide) none (by decide)).1

/-- C1 (code bug): for a note with empty `Front` the heading of the written
file is the previous note's title, not the `Note_<id>` fallback — the
fallback is stored only in `truncated_title` (line 126) while the heading
writes the stale variable `title` (line 147); with no previous note the
write raises `UnboundLocalError` and leaves an empty file. -/
theorem C1_code_bug :
    (processNotes (fun l => l) zeroCounts none
        [⟨1, ['a'], []⟩, ⟨2, [], []⟩]).1 =
      [WriteEvent.file 1 ['a', '.', 'm', 'd'] ['#', ' ', 'a', '\n', '\n', '\n'],
       WriteEvent.file 2 ['N', 'o', 't', 'e', '_', '2', '.', 'm', 'd']
         ['#', ' ', 'a', '\n', '\n', '\n']] ∧
    (['#', ' ', 'a', '\n', '\n', '\n'] : List Char) ≠
      ['#', ' ', 'N', 'o', 't', 'e', '_', '2', '\n', '\n', '\n'] ∧
    processNotes (fun l => l) zeroCounts none [⟨2, [], []⟩] =
      ([WriteEvent.emptyFile 2 ['N', 'o', 't', 'e', '_', '2', '.', 'm', 'd']],
        none, false) := by
  refine ⟨?_, ?_, ?_⟩
  · decide
  · decide
  · decide

/-- C3 counterexample: a response whose `error` field is present and
non-null but falsy (the empty string) raises nothing — the call returns the
`result` field — because line 19 tests Python truthiness
(`if result.get("error"):`), not nullness. -/
theorem C3_counterexample :
    lookupField [(errorKey, Json.str []), (resultKey, Json.num 42)] errorKey =
      some (Json.str []) ∧
    Json.str [] ≠ Json.null ∧
    anki_connect (TransportOutcome.response
      [(errorKey, Json.str []), (resultKey, Json.num 42)]) =
      Except.ok (Json.num 42) := by
  refine ⟨rfl, ?_, rfl⟩
  intro h
  exact Json.noConfusion h

/-- C3 (amended): `anki_connect` raises exactly when the transport fails,
the decoded response carries a truthy `error` field, or the response lacks
a `result` key; the first two raise the same single kind (plain
`Exception`), the third raises a `KeyError`; otherwise the call returns the
response's `result` field. -/
theorem C3_failure_characterization (t : TransportOutcome) :
    (raisesFailure (anki_connect t) = true ↔
      (∃ m, t = TransportOutcome.failure m) ∨
      (∃ fs, t = TransportOutcome.response fs ∧
        (errorFieldTruthy fs = true ∨ lookupField fs resultKey = none))) ∧
    (∀ fs v, t = TransportOutcome.response fs → errorFieldTruthy fs = false →
      lookupField fs resultKey = some v → anki_connect t = Except.ok v) ∧
    (∀ m, t = TransportOutcome.failure m →
      anki_connect t = Except.error (PyExc.exception (connectFailMsg ++ m))) ∧
    (∀ fs, t = TransportOutcome.response fs → errorFieldTruthy fs = true →
      anki_connect t = Except.error (PyExc.exception ankiErrorMsg)) ∧
    (∀ fs, t = TransportOutcome.response fs → errorFieldTruthy fs = false →
      lookupField fs resultKey = none → anki_connect t = Except.error PyExc.keyError) := by
  cases t with
  | failure m =>
    refine ⟨?_, ?_, ?_, ?_, ?_⟩
    · constructor
      · intro _
        exact Or.inl ⟨m, rfl⟩
      · intro _
        rfl
    · intro fs v heq
      exact TransportOutcome.noConfusion heq
    · intro m' heq
      have hm := TransportOutcome.failure.inj heq
      rw [← hm]
      rfl
    · intro fs heq
      exact TransportOutcome.noConfusion heq
    · intro fs heq
      exact TransportOutcome.noConfusion heq
  | response fs =>
    by_cases he : errorFieldTruthy fs = true
    · refine ⟨?_, ?_, ?_, ?_, ?_⟩
      · constructor
        · intro _
          exact Or.inr ⟨fs, rfl, Or.inl he⟩
        · intro _
          simp [anki_connect, if_pos he, raisesFailure]
      · intro fs' v heq he' _
        have hfs := TransportOutcome.response.inj heq
        subst hfs
        rw [he] at he'
        exact Bool.noConfusion he'
      · intro m heq
        exact TransportOutcome.noConfusion heq
      · intro fs' heq _
        have hfs := TransportOutcome.response.inj heq
        subst hfs
        simp [anki_connect, if_pos he]
      · intro fs' heq he' _
        have hfs := TransportOutcome.response.inj heq
        subst hfs
        rw [he] at he'
        exact Bool.noConfusion he'
    · have he0 : errorFieldTruthy fs = false := by
        cases h : errorFieldTruthy fs
        · rfl
        · exact absurd h he
      cases hr : lookupField fs resultKey with
      | some v =>
        refine ⟨?_, ?_, ?_, ?_, ?_⟩
        · constructor
          · intro hraise
            rw [show anki_connect (TransportOutcome.response fs) = Except.ok v by
              simp [anki_connect, if_neg he, hr]] at hraise
            exact absurd hraise (by simp [raisesFailure])
          · intro hor
            rcases hor with ⟨m, hm⟩ | ⟨fs', hfs, hcase⟩
            · exact TransportOutcome.noConfusion hm
            · have := TransportOutcome.response.inj hfs
              subst this
              rcases hcase with h1 | h1
              · rw [he0] at h1
                exact Bool.noConfusion h1
              · rw [hr] at h1
                exact Option.noConfusion h1
        · intro fs' v' heq _ hr'
          have hfs := TransportOutcome.response.inj heq
          subst hfs
          rw [hr] at hr'
          have := Option.some.inj hr'
          subst this
          simp [anki_connect, if_neg he, hr]
        · intro m heq
          exact TransportOutcome.noConfusion heq
        · intro fs' heq he'
          have hfs := TransportOutcome.response.inj heq
          subst hfs
          rw [he0] at he'
          exact Bool.noConfusion he'
        · intro fs' heq _ hr'
          have hfs := TransportOutcome.response.inj heq
          subst hfs
          rw [hr] at hr'
          exact Option.noConfusion hr'
      | none =>
        refine ⟨?_, ?_, ?_, ?_, ?_⟩
        · constructor
          · intro _
            exact Or.inr ⟨fs, rfl, Or.inr hr⟩
          · intro _
            simp [anki_connect, if_neg he, hr, raisesFailure]
        · intro fs' v heq _ hr'
          have hfs := TransportOutcome.response.inj heq
          subst hfs
          rw [hr] at hr'
          exact Option.noConfusion hr'
        · intro m heq
          exact TransportOutcome.noConfusion heq
        · intro fs' heq he'
          have hfs := TransportOutcome.response.inj heq
          subst hfs
          rw [he0] at he'
          exact Bool.noConfusion he'
        · intro fs' heq _ _
          have hfs := TransportOutcome.response.inj heq
          subst hfs
          simp [anki_connect, if_neg he, hr]

/-- Witness for C3: a clean response returns its `result` field. -/
theorem C3_witness :
    anki_connect (TransportOutcome.response [(resultKey, Json.num 7)]) =
      Except.ok (Json.num 7) :=
  (C3_failure_characterization
    (TransportOutcome.response [(resultKey, Json.num 7)])).2.1
    [(resultKey, Json.num 7)] (Json.num 7) rfl rfl rfl

/-- C7 counterexample: the deck name `"A::::B"` has the components
`["A", "", "B"]`, but the exporter drops the empty component (`if part` at
line 107) instead of producing a sanitized segment (`"unnamed"`) for it, so
the directory is not component-wise. -/
theorem C7_counterexample :
    deck_directory ['A', ':', ':', ':', ':', 'B'] = [outputRoot, ['A'], ['B']] ∧
    (splitOnColons ['A', ':', ':', ':', ':', 'B']).map sanitize_filename ≠
      [['A'], ['B']] := by
  constructor
  · decide
  · decide

/-- C7 (amended): for deck names all of whose `"::"`-separated components
are non-empty, the deck directory is the output root followed by one
sanitized segment per component, in order. -/
theorem C7_deck_directory (deck_name : List Char)
    (h : [] ∉ splitOnColons deck_name) :
    deck_directory deck_name =
      outputRoot :: (splitOnColons deck_name).map sanitize_filename := by
  simp only [deck_directory]
  have hfil : (splitOnColons deck_name).filter (fun p => p ≠ []) =
      splitOnColons deck_name := by
    rw [List.filter_eq_self]
    intro a ha
    have hne : a ≠ [] := fun he => h (he ▸ ha)
    simpa using hne
  rw [hfil]

/-- Witness for C7 at the deck name `"Math::Algebra"`. -/
theorem C7_witness :
    deck_directory ['M', 'a', 't', 'h', ':', ':', 'A', 'l', 'g', 'e', 'b', 'r', 'a'] =
      outputRoot ::
        (splitOnColons
          ['M', 'a', 't', 'h', ':', ':', 'A', 'l', 'g', 'e', 'b', 'r', 'a']).map
          sanitize_filename :=
  C7_deck_directory _ (by decide)

/-- C8: an empty overall deck list produces exactly the "no decks" notice:
the run terminates immediately, with no directory created and no file
written (nothing under the output root either, since `os.makedirs` at line
95 comes after the early return of lines 89-91). -/
theorem C8_empty_deck_list (handle : List Char → List Char) :
    main_effects handle [] = [Effect.print noDecksMsg] ∧
    ∀ e ∈ main_effects handle [], e.touchesFS = false := by
  constructor
  · rfl
  · intro e he
    have h1 : main_effects handle [] = [Effect.print noDecksMsg] := rfl
    rw [h1] at he
    have h2 := List.mem_singleton.mp he
    rw [h2]
    rfl

/-- Witness for C8. -/
theorem C8_witness : main_effects (fun l => l) [] = [Effect.print noDecksMsg] :=
  (C8_empty_deck_list (fun l => l)).1

/-- Stripping a string that is entirely made of stripped characters yields
the empty string. -/
lemma stripWhile_eq_nil_of_all (p : Char → Bool) (l : List Char)
    (h : ∀ c ∈ l, p c = true) : stripWhile p l = [] := by
  have hd : l.dropWhile p = [] := by
    rw [List.dropWhile_eq_nil_iff]
    exact h
  unfold stripWhile
  rw [hd]
  rfl

/-- C9: `clean_field` returns the empty string both for `None` and for the
empty string, given that the `html2text` conversion emits only whitespace
(blank lines) on empty input — the library behaviour the spec records as
"empty/absent input yields empty output". -/
theorem C9_clean_field_empty (handle : List Char → List Char)
    (hempty : ∀ c ∈ handle [], isPyWhitespace c = true) :
    clean_field handle none = [] ∧ clean_field handle (some []) = [] := by
  constructor
  · rfl
  · show pyStrip (handle []) = []
    exact stripWhile_eq_nil_of_all _ _ hempty

/-- Witness for C9 with a converter returning `"\n\n"` on empty input. -/
theorem C9_witness :
    clean_field (fun _ => ['\n', '\n']) none = [] ∧
    clean_field (fun _ => ['\n', '\n']) (some []) = [] :=
  ⟨(C9_clean_field_empty (fun _ => ['\n', '\n']) (by decide)).1,
   (C9_clean_field_empty (fun _ => ['\n', '\n']) (by decide)).2⟩
